import Mathlib

/-!
# Verification of a toy LWE-style public-key bit-encryption scheme

Shallow embedding of a small Python/numpy program implementing key
generation, encryption and decryption of a single bit modulo `q = 10`.
Vectors are `List ℤ`, matrices are `List (List ℤ)`; `%` on `ℤ`
(`Int.emod`) agrees with Python's `%` for a positive modulus.
Random draws made by the program are passed to the embedded functions
as explicit arguments, so every property quantifies over all values the
draws can take.
-/

namespace BGV

/-- Parameter tuple `(q, d, n, N, chi)` as returned by `setup`. -/
abbrev Params : Type := ℕ × ℕ × ℕ × ℕ × ℕ

/-- Dot product of two integer vectors, as `np.dot` computes it on two
1-D arrays of equal length. -/
def dot (xs ys : List ℤ) : ℤ := (List.zipWith (· * ·) xs ys).sum

/-- Matrix–vector product `np.dot(M, v)`: one dot product per row. -/
def matVec (M : List (List ℤ)) (v : List ℤ) : List ℤ := M.map (fun row => dot row v)

/-- One step of `transpose`: prepend the entries of `row` to the
already-transposed columns `cols`, starting new columns when `cols`
runs out.  On rectangular input both lists have equal length. -/
def zipCons : List ℤ → List (List ℤ) → List (List ℤ)
  | [], cols => cols
  | a :: as, [] => [a] :: zipCons as []
  | a :: as, c :: cols => (a :: c) :: zipCons as cols

/-- Transpose of a matrix, `M.T` in numpy (numpy arrays are always
rectangular, and on rectangular input this is the usual transpose). -/
def transpose : List (List ℤ) → List (List ℤ)
  | [] => []
  | row :: M => zipCons row (transpose M)

/-- Embedding of `setup(bit_length, mod_size, base_value)`.  The source
first executes `q = random.getrandbits(mod_size)`, which raises
`ValueError` when `mod_size` is negative (modelled as `Except.error`);
for a non-negative `mod_size` the drawn value (passed here as `q_draw`)
is immediately overwritten with the constant `10`.  The other
parameters are hardcoded, and `N = ceil((2*n+1) * log2(q))`, which for
natural numbers is exactly `Nat.clog 2 (q ^ (2*n+1))`. -/
def setup (bit_length mod_size base_value : ℤ) (q_draw : ℤ) : Except String Params :=
  if 0 ≤ mod_size then
    let q : ℕ := 10
    let d : ℕ := 10
    let n : ℕ := 10
    let chi : ℕ := 1
    let N : ℕ := Nat.clog 2 (q ^ (2 * n + 1))
    Except.ok (q, d, n, N, chi)
  else
    Except.error "number of bits must be non-negative"

/-- Embedding of `secret_key_gen(params)`.  The random draw
`np.random.randint(0, q, n + 1)` is passed explicitly as `draw`; the
function then forces element `0` to `1`. -/
def secret_key_gen (params : Params) (draw : List ℤ) : List ℤ :=
  draw.set 0 1

/-- The public-key matrix `np.hstack((b, -A)) % q` with
`b = A·sk[1:] + 2e`, that is, the value `public_key_gen` builds before
its correctness assertion. -/
def pk_matrix (q : ℤ) (sk : List ℤ) (A : List (List ℤ)) (e : List ℤ) : List (List ℤ) :=
  let b := List.zipWith (· + ·) (matVec A (sk.drop 1)) (e.map (fun x => 2 * x))
  List.zipWith (fun bi arow => ((bi :: arow.map (fun x => -x)).map (· % q))) b A

/-- Embedding of `public_key_gen(params, sk)` with the random draws `A`
(shape `N×n`) and `e` (length `N`) passed explicitly.  The statement
`assert np.all(np.dot(public_key, sk) % q == (2 * e) % q)` is rendered
as the `if`; an assertion failure is modelled by `Except.error`. -/
def public_key_gen (params : Params) (sk : List ℤ) (A : List (List ℤ)) (e : List ℤ) :
    Except String (List (List ℤ)) :=
  let q : ℤ := (params.1 : ℤ)
  let public_key := pk_matrix q sk A e
  if (matVec public_key sk).map (· % q) = e.map (fun x => (2 * x) % q) then
    Except.ok public_key
  else
    Except.error "Public key generation failed"

/-- Embedding of `encrypt(params, pk, message)` with the random binary
draw `r` (length `N`) passed explicitly.  The source asserts
`message in (0, 1)` before anything else; an assertion failure is
modelled by `Except.error`. -/
def encrypt (params : Params) (pk : List (List ℤ)) (r : List ℤ) (message : ℤ) :
    Except String (List ℤ) :=
  if message = 0 ∨ message = 1 then
    let q : ℤ := (params.1 : ℤ)
    let n : ℕ := params.2.2.1
    let message_vector := message :: List.replicate n 0
    let ciphertext := List.zipWith (· + ·) message_vector (matVec (transpose pk) r)
    Except.ok (ciphertext.map (· % q))
  else
    Except.error "Message must be either 0 or 1"

/-- numpy's element-wise product `ciphertext * sk` of two 1-D arrays:
defined when the lengths match or either operand has length 1
(broadcasting); on any other shape pair numpy raises. -/
def broadcastMul (c sk : List ℤ) : Option (List ℤ) :=
  if c.length = sk.length then some (List.zipWith (· * ·) c sk)
  else if c.length = 1 then some (sk.map (fun y => c.getD 0 0 * y))
  else if sk.length = 1 then some (c.map (fun x => x * sk.getD 0 0))
  else none

/-- Embedding of `decrypt(params, sk, ciphertext)`, which returns
`(np.sum(ciphertext * sk) % q) % 2`; a shape error raised by numpy's
broadcast of `ciphertext * sk` is modelled as `Except.error`. -/
def decrypt (params : Params) (sk ciphertext : List ℤ) : Except String ℤ :=
  match broadcastMul ciphertext sk with
  | some prods => Except.ok (prods.sum % (params.1 : ℤ) % 2)
  | none => Except.error "DimensionMismatch"

/-! ## Dot-product algebra -/

lemma dot_nil_left (v : List ℤ) : dot [] v = 0 := rfl

lemma dot_nil_right (v : List ℤ) : dot v [] = 0 := by cases v <;> rfl

lemma dot_cons_cons (x y : ℤ) (xs ys : List ℤ) :
    dot (x :: xs) (y :: ys) = x * y + dot xs ys := by
  simp [dot]

lemma matVec_cons (row : List ℤ) (M : List (List ℤ)) (v : List ℤ) :
    matVec (row :: M) v = dot row v :: matVec M v := rfl

lemma length_matVec (M : List (List ℤ)) (v : List ℤ) :
    (matVec M v).length = M.length := by
  simp [matVec]

lemma dot_replicate_zero (k : ℕ) (v : List ℤ) : dot (List.replicate k 0) v = 0 := by
  induction k generalizing v with
  | zero => rfl
  | succ k ih =>
    cases v with
    | nil => exact dot_nil_right _
    | cons y ys => rw [List.replicate_succ, dot_cons_cons, ih]; ring

lemma dot_map_mul_left (c : ℤ) (xs : List ℤ) : ∀ v : List ℤ,
    dot (xs.map (fun a => c * a)) v = c * dot xs v := by
  induction xs with
  | nil => intro v; simp [dot]
  | cons a as ih =>
    intro v
    cases v with
    | nil => simp [dot_nil_right]
    | cons y ys => rw [List.map_cons, dot_cons_cons, dot_cons_cons, ih]; ring

lemma dot_map_mul_left' (c : ℤ) (xs : List ℤ) : ∀ v : List ℤ,
    dot (xs.map (fun a => a * c)) v = c * dot xs v := by
  induction xs with
  | nil => intro v; simp [dot]
  | cons a as ih =>
    intro v
    cases v with
    | nil => simp [dot_nil_right]
    | cons y ys => rw [List.map_cons, dot_cons_cons, dot_cons_cons, ih]; ring

lemma dot_map_mul_right (c : ℤ) (v : List ℤ) : ∀ ys : List ℤ,
    dot v (ys.map (fun a => c * a)) = c * dot v ys := by
  induction v with
  | nil => intro ys; simp [dot]
  | cons a as ih =>
    intro ys
    cases ys with
    | nil => simp [dot_nil_right]
    | cons y ys' => rw [List.map_cons, dot_cons_cons, dot_cons_cons, ih]; ring

lemma dot_map_neg (xs : List ℤ) : ∀ v : List ℤ,
    dot (xs.map (fun a => -a)) v = -dot xs v := by
  induction xs with
  | nil => intro v; simp [dot]
  | cons a as ih =>
    intro v
    cases v with
    | nil => simp [dot_nil_right]
    | cons y ys => rw [List.map_cons, dot_cons_cons, dot_cons_cons, ih]; ring

lemma dot_zipWith_add : ∀ (a b v : List ℤ), a.length = b.length →
    dot (List.zipWith (· + ·) a b) v = dot a v + dot b v
  | [], [], v, _ => by simp [dot]
  | [], _ :: _, _, h => by simp at h
  | _ :: _, [], _, h => by simp at h
  | x :: xs, y :: ys, [], _ => by simp [dot_nil_right]
  | x :: xs, y :: ys, z :: zs, h => by
    rw [List.zipWith_cons_cons, dot_cons_cons, dot_cons_cons, dot_cons_cons,
      dot_zipWith_add xs ys zs (by simpa using h)]
    ring

/-! ## Modular arithmetic on dot products -/

lemma emod_modeq (x q : ℤ) : x % q ≡ x [ZMOD q] :=
  Int.emod_emod_of_dvd x dvd_rfl

lemma dot_map_emod (q : ℤ) (xs : List ℤ) : ∀ v : List ℤ,
    dot (xs.map (· % q)) v ≡ dot xs v [ZMOD q] := by
  induction xs with
  | nil => intro v; rfl
  | cons a as ih =>
    intro v
    cases v with
    | nil => rw [List.map_cons, dot_nil_right, dot_nil_right]
    | cons y ys =>
      rw [List.map_cons, dot_cons_cons, dot_cons_cons]
      exact Int.ModEq.add ((emod_modeq a q).mul_right y) (ih ys)

lemma dot_congr_modeq (q : ℤ) {v w : List ℤ}
    (h : List.Forall₂ (fun a b => a ≡ b [ZMOD q]) v w) : ∀ r : List ℤ,
    dot r v ≡ dot r w [ZMOD q] := by
  induction h with
  | nil => intro r; rfl
  | cons hab htail ih =>
    intro r
    cases r with
    | nil => rfl
    | cons x rs =>
      rw [dot_cons_cons, dot_cons_cons]
      exact Int.ModEq.add (hab.mul_left x) (ih rs)

lemma map_emod_eq_of_forall2 {q : ℤ} : ∀ {v w : List ℤ},
    List.Forall₂ (fun a b => a ≡ b [ZMOD q]) v w →
    v.map (· % q) = w.map (· % q)
  | _, _, List.Forall₂.nil => rfl
  | _, _, List.Forall₂.cons h t => by
    have h' : _ % q = _ % q := h
    rw [List.map_cons, List.map_cons, h', map_emod_eq_of_forall2 t]

/-! ## Transpose -/

lemma zipCons_nil_right : ∀ as : List ℤ, zipCons as [] = as.map (fun a => [a])
  | [] => rfl
  | a :: as => by rw [zipCons, zipCons_nil_right as, List.map_cons]

lemma zipCons_eq_zipWith : ∀ (as : List ℤ) (cs : List (List ℤ)), as.length = cs.length →
    zipCons as cs = List.zipWith (· :: ·) as cs
  | [], [], _ => rfl
  | [], _ :: _, h => by simp at h
  | _ :: _, [], h => by simp at h
  | a :: as, c :: cs, h => by
    rw [zipCons, List.zipWith_cons_cons, zipCons_eq_zipWith as cs (by simpa using h)]

lemma length_transpose_rect (w : ℕ) : ∀ M : List (List ℤ), M ≠ [] →
    (∀ row ∈ M, row.length = w) → (transpose M).length = w
  | [], h, _ => absurd rfl h
  | [row], _, hrect => by
    have : transpose [row] = row.map (fun a => [a]) := by
      rw [transpose, transpose, zipCons_nil_right]
    rw [this, List.length_map]
    exact hrect row (by simp)
  | row :: row' :: M, _, hrect => by
    have ht : (transpose (row' :: M)).length = w :=
      length_transpose_rect w (row' :: M) (by simp)
        (fun s hs => hrect s (List.mem_cons_of_mem _ hs))
    have hrow : row.length = w := hrect row (by simp)
    rw [transpose, zipCons_eq_zipWith row _ (hrow.trans ht.symm), List.length_zipWith, ht,
      hrow]
    exact Nat.min_self w

lemma matVec_map_singleton (x : ℤ) : ∀ row : List ℤ,
    matVec (row.map (fun a => [a])) [x] = row.map (fun a => a * x)
  | [] => rfl
  | a :: as => by
    rw [List.map_cons, matVec_cons, matVec_map_singleton x as, List.map_cons, dot_cons_cons,
      dot_nil_left]
    ring_nf

lemma dot_matVec_zipWith_cons :
    ∀ (row : List ℤ) (tM : List (List ℤ)) (x : ℤ) (r sk : List ℤ),
    row.length = tM.length →
    dot (matVec (List.zipWith (· :: ·) row tM) (x :: r)) sk
      = x * dot row sk + dot (matVec tM r) sk
  | [], [], x, r, sk, _ => by simp [matVec, dot]
  | [], _ :: _, _, _, _, h => by simp at h
  | _ :: _, [], _, _, _, h => by simp at h
  | a :: as, c :: cs, x, r, [], _ => by simp [dot_nil_right]
  | a :: as, c :: cs, x, r, s :: sk, h => by
    rw [List.zipWith_cons_cons, matVec_cons, matVec_cons, dot_cons_cons, dot_cons_cons,
      dot_cons_cons, dot_cons_cons,
      dot_matVec_zipWith_cons as cs x r sk (by simpa using h)]
    ring

/-- Summation exchange behind `dot c sk` for `c = pkᵀ·r`:
for a rectangular matrix `M` one has `(Mᵀ r) · sk = r · (M sk)`. -/
lemma dot_matVec_transpose (w : ℕ) : ∀ (M : List (List ℤ)) (r sk : List ℤ),
    M.length = r.length → (∀ row ∈ M, row.length = w) →
    dot (matVec (transpose M) r) sk = dot r (matVec M sk)
  | [], [], sk, _, _ => by simp [transpose, matVec, dot]
  | [], _ :: _, _, h, _ => by simp at h
  | _ :: _, [], _, h, _ => by simp at h
  | [row], [x], sk, _, _ => by
    rw [transpose, transpose, zipCons_nil_right, matVec_map_singleton, dot_map_mul_left',
      matVec_cons, dot_cons_cons, dot_nil_left]
    ring
  | row :: row' :: M, x :: r, sk, h, hrect => by
    have hrow : row.length = w := hrect row (by simp)
    have ht : (transpose (row' :: M)).length = w :=
      length_transpose_rect w (row' :: M) (by simp)
        (fun s hs => hrect s (List.mem_cons_of_mem _ hs))
    rw [transpose, zipCons_eq_zipWith row _ (hrow.trans ht.symm),
      dot_matVec_zipWith_cons row _ x r sk (hrow.trans ht.symm),
      dot_matVec_transpose w (row' :: M) r sk (by simpa using h)
        (fun s hs => hrect s (List.mem_cons_of_mem _ hs))]
    simp [matVec_cons, dot_cons_cons]

/-! ## Structure of the public-key matrix -/

lemma pk_matrix_nil_left (q : ℤ) (sk e : List ℤ) : pk_matrix q sk [] e = [] := by
  simp [pk_matrix, matVec]

lemma pk_matrix_nil_right (q : ℤ) (sk : List ℤ) (A : List (List ℤ)) :
    pk_matrix q sk A [] = [] := by
  simp [pk_matrix, matVec]

lemma pk_matrix_cons (q : ℤ) (sk a : List ℤ) (A : List (List ℤ)) (x : ℤ) (e : List ℤ) :
    pk_matrix q sk (a :: A) (x :: e)
      = ((dot a (sk.drop 1) + 2 * x) :: a.map (fun v => -v)).map (· % q)
          :: pk_matrix q sk A e := by
  simp [pk_matrix, matVec]

lemma pk_matrix_length : ∀ (A : List (List ℤ)) (e : List ℤ), A.length = e.length →
    ∀ (q : ℤ) (sk : List ℤ), (pk_matrix q sk A e).length = A.length
  | [], [], _, q, sk => by simp [pk_matrix_nil_left]
  | [], _ :: _, h, _, _ => by simp at h
  | _ :: _, [], h, _, _ => by simp at h
  | a :: A, x :: e, h, q, sk => by
    rw [pk_matrix_cons, List.length_cons, List.length_cons,
      pk_matrix_length A e (by simpa using h) q sk]

lemma pk_matrix_rect (n : ℕ) : ∀ (A : List (List ℤ)) (e : List ℤ) (q : ℤ) (sk : List ℤ),
    (∀ row ∈ A, row.length = n) →
    ∀ row ∈ pk_matrix q sk A e, row.length = n + 1
  | [], e, q, sk, _, row, hrow => by rw [pk_matrix_nil_left] at hrow; simp at hrow
  | a :: A, [], q, sk, _, row, hrow => by rw [pk_matrix_nil_right] at hrow; simp at hrow
  | a :: A, x :: e, q, sk, hr, row, hrow => by
    rw [pk_matrix_cons] at hrow
    rcases List.mem_cons.mp hrow with h1 | h2
    · subst h1
      simp only [List.length_map, List.length_cons]
      rw [hr a (by simp)]
    · exact pk_matrix_rect n A e q sk (fun s hs => hr s (List.mem_cons_of_mem _ hs)) row h2

lemma pk_matrix_entries {q : ℤ} (hq : 0 < q) : ∀ (A : List (List ℤ)) (e sk : List ℤ),
    ∀ row ∈ pk_matrix q sk A e, ∀ v ∈ row, 0 ≤ v ∧ v < q
  | [], e, sk, row, hrow => by rw [pk_matrix_nil_left] at hrow; simp at hrow
  | a :: A, [], sk, row, hrow => by rw [pk_matrix_nil_right] at hrow; simp at hrow
  | a :: A, x :: e, sk, row, hrow => by
    rw [pk_matrix_cons] at hrow
    rcases List.mem_cons.mp hrow with h1 | h2
    · subst h1
      intro v hv
      obtain ⟨u, _, rfl⟩ := List.mem_map.mp hv
      exact ⟨Int.emod_nonneg u (ne_of_gt hq), Int.emod_lt_of_pos u hq⟩
    · exact pk_matrix_entries hq A e sk row h2

lemma pk_matrix_heads (q : ℤ) (sk : List ℤ) : ∀ (A : List (List ℤ)) (e : List ℤ),
    A.length = e.length →
    (pk_matrix q sk A e).map (fun row => row.getD 0 0)
      = (List.zipWith (· + ·) (matVec A (sk.drop 1)) (e.map (fun x => 2 * x))).map (· % q)
  | [], [], _ => by simp [pk_matrix_nil_left, matVec]
  | [], _ :: _, h => by simp at h
  | _ :: _, [], h => by simp at h
  | a :: A, x :: e, h => by
    rw [pk_matrix_cons, List.map_cons, pk_matrix_heads q sk A e (by simpa using h)]
    simp [matVec_cons]

lemma pk_matrix_tails (q : ℤ) (sk : List ℤ) : ∀ (A : List (List ℤ)) (e : List ℤ),
    A.length = e.length →
    (pk_matrix q sk A e).map List.tail
      = A.map (fun arow => arow.map (fun v => (-v) % q))
  | [], [], _ => by simp [pk_matrix_nil_left]
  | [], _ :: _, h => by simp at h
  | _ :: _, [], h => by simp at h
  | a :: A, x :: e, h => by
    rw [pk_matrix_cons, List.map_cons, pk_matrix_tails q sk A e (by simpa using h)]
    simp [List.map_map]

/-- Row-wise content of the assertion in `public_key_gen`: with
`sk[0] = 1`, every row of the constructed public key satisfies
`pk[i]·sk ≡ 2·e[i] (mod q)`, whatever values the draws `A`, `e` took. -/
lemma pk_matVec_modeq (q : ℤ) (t : List ℤ) : ∀ (A : List (List ℤ)) (e : List ℤ),
    A.length = e.length →
    List.Forall₂ (fun a b => a ≡ b [ZMOD q])
      (matVec (pk_matrix q (1 :: t) A e) (1 :: t)) (e.map (fun x => 2 * x))
  | [], [], _ => by simp [pk_matrix_nil_left, matVec]
  | [], _ :: _, h => by simp at h
  | _ :: _, [], h => by simp at h
  | a :: A, x :: e, h => by
    rw [pk_matrix_cons, matVec_cons, List.map_cons]
    refine List.Forall₂.cons ?_ (pk_matVec_modeq q t A e (by simpa using h))
    have hbase :
        dot ((dot a ((1 :: t).drop 1) + 2 * x) :: a.map (fun v => -v)) (1 :: t) = 2 * x := by
      rw [dot_cons_cons, dot_map_neg]
      simp only [List.drop_succ_cons, List.drop_zero]
      ring
    calc dot (((dot a ((1 :: t).drop 1) + 2 * x) :: a.map (fun v => -v)).map (· % q)) (1 :: t)
        ≡ dot ((dot a ((1 :: t).drop 1) + 2 * x) :: a.map (fun v => -v)) (1 :: t) [ZMOD q] :=
          dot_map_emod q _ _
      _ = 2 * x := hbase

/-! ## Behaviour of the top-level functions -/

lemma clog_two_ten_pow : Nat.clog 2 (10 ^ (2 * 10 + 1)) = 70 := by
  have h1 : Nat.clog 2 (10 ^ (2 * 10 + 1)) ≤ 70 :=
    (Nat.le_pow_iff_clog_le (by norm_num)).mp (by norm_num)
  have h2 : 69 < Nat.clog 2 (10 ^ (2 * 10 + 1)) :=
    (Nat.pow_lt_iff_lt_clog (by norm_num)).mp (by norm_num)
  omega

lemma setup_eq_const (bit_length mod_size base_value q_draw : ℤ) (h : 0 ≤ mod_size) :
    setup bit_length mod_size base_value q_draw = Except.ok (10, 10, 10, 70, 1) := by
  simp only [setup, clog_two_ten_pow]
  rw [if_pos h]

lemma secret_key_gen_cons (params : Params) (d0 : ℤ) (dt : List ℤ) :
    secret_key_gen params (d0 :: dt) = 1 :: dt := rfl

lemma decrypt_eq_of_length_eq (params : Params) (sk c : List ℤ) (h : c.length = sk.length) :
    decrypt params sk c = Except.ok (dot c sk % (params.1 : ℤ) % 2) := by
  simp [decrypt, broadcastMul, h, dot]

lemma encrypt_eq_of_valid (params : Params) (pk : List (List ℤ)) (r : List ℤ) {m : ℤ}
    (hm : m = 0 ∨ m = 1) :
    encrypt params pk r m
      = Except.ok ((List.zipWith (· + ·) (m :: List.replicate params.2.2.1 0)
          (matVec (transpose pk) r)).map (· % (params.1 : ℤ))) := by
  simp only [encrypt]
  rw [if_pos hm]

lemma encrypt_eq_error (params : Params) (pk : List (List ℤ)) (r : List ℤ) {m : ℤ}
    (hm : ¬ (m = 0 ∨ m = 1)) :
    encrypt params pk r m = Except.error "Message must be either 0 or 1" := by
  simp only [encrypt]
  rw [if_neg hm]

/-- With `sk[0] = 1` the assertion of `public_key_gen` holds for all
draws, so the function returns its constructed matrix. -/
lemma check_passes {params : Params} {sk : List ℤ} {A : List (List ℤ)} {e : List ℤ}
    (hsk : sk.head? = some 1) (hAe : A.length = e.length) :
    (matVec (pk_matrix (params.1 : ℤ) sk A e) sk).map (· % (params.1 : ℤ))
      = e.map (fun x => (2 * x) % (params.1 : ℤ)) := by
  cases sk with
  | nil => simp at hsk
  | cons a t =>
    have ha : a = 1 := by simpa using hsk
    subst ha
    have h := pk_matVec_modeq (params.1 : ℤ) t A e hAe
    rw [map_emod_eq_of_forall2 h, List.map_map]
    rfl

lemma public_key_gen_eq_ok {params : Params} {sk : List ℤ} {A : List (List ℤ)} {e : List ℤ}
    (hsk : sk.head? = some 1) (hAe : A.length = e.length) :
    public_key_gen params sk A e = Except.ok (pk_matrix (params.1 : ℤ) sk A e) := by
  simp only [public_key_gen]
  rw [if_pos (check_passes hsk hAe)]

lemma public_key_gen_ok_inv {params : Params} {sk : List ℤ} {A : List (List ℤ)}
    {e : List ℤ} {P : List (List ℤ)}
    (h : public_key_gen params sk A e = Except.ok P) :
    P = pk_matrix (params.1 : ℤ) sk A e := by
  by_cases hc : (matVec (pk_matrix (params.1 : ℤ) sk A e) sk).map (· % (params.1 : ℤ))
      = e.map (fun x => (2 * x) % (params.1 : ℤ))
  · simp only [public_key_gen] at h
    rw [if_pos hc] at h
    exact (Except.ok.inj h).symm
  · simp only [public_key_gen] at h
    rw [if_neg hc] at h
    exact absurd h (by simp)

lemma forall2_of_map_map {α β : Type} {R : ℤ → ℤ → Prop} (f : α → ℤ) (g : β → ℤ) :
    ∀ {L : List α} {e : List β}, List.Forall₂ R (L.map f) (e.map g) →
      List.Forall₂ (fun a b => R (f a) (g b)) L e
  | [], [], _ => List.Forall₂.nil
  | [], _ :: _, h => by rw [List.map_nil, List.map_cons] at h; exact nomatch h
  | _ :: _, [], h => by rw [List.map_cons, List.map_nil] at h; exact nomatch h
  | a :: L, b :: e, h => by
    rw [List.map_cons, List.map_cons] at h
    cases h with
    | cons hh ht => exact List.Forall₂.cons hh (forall2_of_map_map f g ht)

/-! ## Claims -/

/-- C3 (counterexample to the claim as stated): `setup` is not constant
over all integer inputs, because the dead draw
`random.getrandbits(mod_size)` raises `ValueError` for a negative
`mod_size` before anything else runs: `setup(1, -1, 1)` raises instead
of returning the parameter tuple. -/
theorem setup_constant_cex :
    setup 1 (-1) 1 0 = Except.error "number of bits must be non-negative"
      ∧ setup 1 (-1) 1 0 ≠ Except.ok (10, 10, 10, 70, 1) := by
  constructor
  · rw [setup, if_neg (by decide)]
  · rw [setup, if_neg (by decide)]
    simp

/-- C3 (amended): for all integer inputs with `mod_size ≥ 0` (so that
the dead draw `random.getrandbits(mod_size)` succeeds), `setup` returns
exactly the tuple `q = 10, d = 10, n = 10, N = 70 = ⌈(2·10+1)·log2 10⌉,
chi = 1`; the arguments and the value of the initial random draw have
no effect on the result. -/
theorem setup_constant (bit_length mod_size base_value q_draw : ℤ)
    (h : 0 ≤ mod_size) :
    setup bit_length mod_size base_value q_draw = Except.ok (10, 10, 10, 70, 1) :=
  setup_eq_const bit_length mod_size base_value q_draw h

theorem setup_constant_witness :
    setup 1 1 1 5 = Except.ok (10, 10, 10, 70, 1) :=
  setup_constant 1 1 1 5 (by decide)

/-- C5: Secret-key invariant: for every parameter tuple with `q > 0`
and every random draw (a vector of length `n+1` with entries in
`[0, q)`), `secret_key_gen` returns a vector of length `n+1` whose
element 0 equals `1` and whose elements `1..n` (its tail) all lie in
`[0, q)`. -/
theorem secret_key_invariant (params : Params) (draw : List ℤ)
    (hq : 0 < params.1) (hlen : draw.length = params.2.2.1 + 1)
    (hrange : ∀ x ∈ draw, 0 ≤ x ∧ x < (params.1 : ℤ)) :
    (secret_key_gen params draw).length = params.2.2.1 + 1
      ∧ (secret_key_gen params draw).head? = some 1
      ∧ ∀ x ∈ (secret_key_gen params draw).tail, 0 ≤ x ∧ x < (params.1 : ℤ) := by
  cases draw with
  | nil => exact absurd hlen (by simp)
  | cons d0 dt =>
    refine ⟨?_, rfl, ?_⟩
    · rw [secret_key_gen_cons]
      simpa using hlen
    · intro x hx
      rw [secret_key_gen_cons] at hx
      exact hrange x (List.mem_cons_of_mem d0 hx)

theorem secret_key_invariant_witness :
    (secret_key_gen (10, 10, 10, 70, 1) (List.replicate 11 3)).length = 10 + 1
      ∧ (secret_key_gen (10, 10, 10, 70, 1) (List.replicate 11 3)).head? = some 1
      ∧ ∀ x ∈ (secret_key_gen (10, 10, 10, 70, 1) (List.replicate 11 3)).tail,
          0 ≤ x ∧ x < ((10 : ℕ) : ℤ) :=
  secret_key_invariant (10, 10, 10, 70, 1) (List.replicate 11 3) (by decide) (by decide)
    (by decide)

/-- C2: Public-key correctness identity: for every secret key with
`sk[0] = 1` and all values of the random draws `A`, `e` (of matching
outer length), every row of the returned public key satisfies
`(pk[i] · sk) mod q = (2·e[i]) mod q`; consequently the assertion in
`public_key_gen` is unreachable and key generation never aborts,
returning the constructed matrix. -/
theorem public_key_correctness_identity (params : Params) (sk : List ℤ)
    (A : List (List ℤ)) (e : List ℤ)
    (hsk : sk.head? = some 1) (hAe : A.length = e.length) :
    List.Forall₂ (fun row ei => dot row sk % (params.1 : ℤ) = 2 * ei % (params.1 : ℤ))
        (pk_matrix (params.1 : ℤ) sk A e) e
      ∧ public_key_gen params sk A e
          = Except.ok (pk_matrix (params.1 : ℤ) sk A e) := by
  refine ⟨?_, public_key_gen_eq_ok hsk hAe⟩
  cases sk with
  | nil => exact absurd hsk (by simp)
  | cons a t =>
    have ha : a = 1 := by simpa using hsk
    subst ha
    have h := pk_matVec_modeq (params.1 : ℤ) t A e hAe
    simp only [matVec] at h
    exact (forall2_of_map_map _ _ h).imp (fun row x hx => hx)

theorem public_key_correctness_identity_witness :
    List.Forall₂ (fun row ei => dot row [1, 2] % (10 : ℤ) = 2 * ei % (10 : ℤ))
        (pk_matrix (10 : ℤ) [1, 2] [[3]] [4]) [4]
      ∧ public_key_gen (10, 10, 10, 70, 1) [1, 2] [[3]] [4]
          = Except.ok (pk_matrix (10 : ℤ) [1, 2] [[3]] [4]) :=
  public_key_correctness_identity (10, 10, 10, 70, 1) [1, 2] [[3]] [4] (by decide) (by decide)

/-- C4: Public key shape and structure: for every secret key of length
`n+1` (with leading `1`, as produced by `secret_key_gen`) and all
values of the draws `A` (shape `N×n`) and `e` (length `N`),
`public_key_gen` returns a matrix of shape `N×(n+1)` whose entries lie
in `[0, q)`, whose column 0 is `(A·sk[1:] + 2e) mod q` and whose
columns `1..n` are `(−A) mod q`. -/
theorem public_key_shape (params : Params) (sk : List ℤ) (A : List (List ℤ)) (e : List ℤ)
    (hq : 0 < params.1)
    (hsk : sk.head? = some 1) (hskl : sk.length = params.2.2.1 + 1)
    (hA : A.length = params.2.2.2.1) (hArect : ∀ row ∈ A, row.length = params.2.2.1)
    (he : e.length = params.2.2.2.1) :
    public_key_gen params sk A e = Except.ok (pk_matrix (params.1 : ℤ) sk A e)
      ∧ (pk_matrix (params.1 : ℤ) sk A e).length = params.2.2.2.1
      ∧ (∀ row ∈ pk_matrix (params.1 : ℤ) sk A e, row.length = params.2.2.1 + 1)
      ∧ (∀ row ∈ pk_matrix (params.1 : ℤ) sk A e, ∀ v ∈ row, 0 ≤ v ∧ v < (params.1 : ℤ))
      ∧ (pk_matrix (params.1 : ℤ) sk A e).map (fun row => row.getD 0 0)
          = (List.zipWith (· + ·) (matVec A (sk.drop 1))
              (e.map (fun x => 2 * x))).map (· % (params.1 : ℤ))
      ∧ (pk_matrix (params.1 : ℤ) sk A e).map List.tail
          = A.map (fun arow => arow.map (fun v => (-v) % (params.1 : ℤ))) := by
  have hqz : (0 : ℤ) < (params.1 : ℤ) := by exact_mod_cast hq
  refine ⟨public_key_gen_eq_ok hsk (hA.trans he.symm), ?_, ?_, ?_, ?_, ?_⟩
  · rw [pk_matrix_length A e (hA.trans he.symm), hA]
  · exact pk_matrix_rect params.2.2.1 A e (params.1 : ℤ) sk hArect
  · exact pk_matrix_entries hqz A e sk
  · exact pk_matrix_heads (params.1 : ℤ) sk A e (hA.trans he.symm)
  · exact pk_matrix_tails (params.1 : ℤ) sk A e (hA.trans he.symm)

theorem public_key_shape_witness :
    public_key_gen (2, 0, 1, 1, 0) [1, 0] [[1]] [1]
        = Except.ok (pk_matrix (2 : ℤ) [1, 0] [[1]] [1])
      ∧ (pk_matrix (2 : ℤ) [1, 0] [[1]] [1]).length = 1
      ∧ (∀ row ∈ pk_matrix (2 : ℤ) [1, 0] [[1]] [1], row.length = 1 + 1)
      ∧ (∀ row ∈ pk_matrix (2 : ℤ) [1, 0] [[1]] [1], ∀ v ∈ row, 0 ≤ v ∧ v < (2 : ℤ))
      ∧ (pk_matrix (2 : ℤ) [1, 0] [[1]] [1]).map (fun row => row.getD 0 0)
          = (List.zipWith (· + ·) (matVec [[1]] (([1, 0] : List ℤ).drop 1))
              (([1] : List ℤ).map (fun x => 2 * x))).map (· % (2 : ℤ))
      ∧ (pk_matrix (2 : ℤ) [1, 0] [[1]] [1]).map List.tail
          = ([[1]] : List (List ℤ)).map (fun arow => arow.map (fun v => (-v) % (2 : ℤ))) :=
  public_key_shape (2, 0, 1, 1, 0) [1, 0] [[1]] [1] (by decide) (by decide) (by decide)
    (by decide) (by decide) (by decide)

/-- C6: Ciphertext construction: for every public key of shape
`N×(n+1)` (with `N > 0` as in the scheme, where `N = 70`), every
message `m ∈ {0,1}` and every value of the random draw `r` of length
`N`, `encrypt` returns exactly `([m,0,...,0] + pkᵀ·r) mod q`, a vector
of length `n+1` all of whose entries lie in `[0, q)`. -/
theorem ciphertext_construction (params : Params) (pk : List (List ℤ)) (r : List ℤ) (m : ℤ)
    (hq : 0 < params.1) (hm : m = 0 ∨ m = 1)
    (hNpos : 0 < params.2.2.2.1)
    (hpkN : pk.length = params.2.2.2.1)
    (hrect : ∀ row ∈ pk, row.length = params.2.2.1 + 1)
    (hr : r.length = params.2.2.2.1) :
    encrypt params pk r m
      = Except.ok ((List.zipWith (· + ·) (m :: List.replicate params.2.2.1 0)
          (matVec (transpose pk) r)).map (· % (params.1 : ℤ)))
      ∧ ∀ C, encrypt params pk r m = Except.ok C →
          C.length = params.2.2.1 + 1 ∧ ∀ v ∈ C, 0 ≤ v ∧ v < (params.1 : ℤ) := by
  have h1 := encrypt_eq_of_valid params pk r hm
  refine ⟨h1, ?_⟩
  intro C hC
  rw [h1] at hC
  have hCeq := Except.ok.inj hC
  have hne : pk ≠ [] := by
    intro hcontra
    rw [hcontra] at hpkN
    simp at hpkN
    omega
  constructor
  · rw [← hCeq, List.length_map, List.length_zipWith, length_matVec,
      length_transpose_rect (params.2.2.1 + 1) pk hne hrect, List.length_cons,
      List.length_replicate]
    exact Nat.min_self _
  · intro v hv
    rw [← hCeq] at hv
    obtain ⟨u, _, rfl⟩ := List.mem_map.mp hv
    have hqz : (0 : ℤ) < (params.1 : ℤ) := by exact_mod_cast hq
    exact ⟨Int.emod_nonneg u (ne_of_gt hqz), Int.emod_lt_of_pos u hqz⟩

theorem ciphertext_construction_witness :
    encrypt (2, 0, 1, 1, 0) [[1, 1]] [1] 1
      = Except.ok ((List.zipWith (· + ·) ((1 : ℤ) :: List.replicate 1 0)
          (matVec (transpose [[1, 1]]) [1])).map (· % (2 : ℤ)))
      ∧ ∀ C, encrypt (2, 0, 1, 1, 0) [[1, 1]] [1] 1 = Except.ok C →
          C.length = 1 + 1 ∧ ∀ v ∈ C, 0 ≤ v ∧ v < (2 : ℤ) :=
  ciphertext_construction (2, 0, 1, 1, 0) [[1, 1]] [1] 1 (by decide) (Or.inr rfl)
    (by decide) (by decide) (by decide) (by decide)

/-- C7: Encrypt input validation: for every message `m ∉ {0,1}`,
`encrypt` fails with the invalid-message error, and the result does not
depend on the public key or on the random draw `r` (the check happens
before any randomness or arithmetic is used); for `m ∈ {0,1}` no error
is raised. -/
theorem encrypt_input_validation (params : Params) (pk pk' : List (List ℤ))
    (r r' : List ℤ) (m : ℤ) :
    (¬ (m = 0 ∨ m = 1) →
      encrypt params pk r m = Except.error "Message must be either 0 or 1"
        ∧ encrypt params pk r m = encrypt params pk' r' m)
    ∧ ((m = 0 ∨ m = 1) → ∃ c, encrypt params pk r m = Except.ok c) := by
  constructor
  · intro hm
    exact ⟨encrypt_eq_error params pk r hm,
      (encrypt_eq_error params pk r hm).trans (encrypt_eq_error params pk' r' hm).symm⟩
  · intro hm
    exact ⟨_, encrypt_eq_of_valid params pk r hm⟩

theorem encrypt_input_validation_witness :
    encrypt (10, 10, 10, 70, 1) [] [] 2 = Except.error "Message must be either 0 or 1" :=
  ((encrypt_input_validation (10, 10, 10, 70, 1) [] [[5]] [] [3] 2).1 (by decide)).1

/-- C8 (counterexample to the claim as stated): a ciphertext of length
1 has length different from the secret key's length `n+1 = 11`, yet
`decrypt` does not fail — numpy broadcasts the length-1 operand — and
returns a value. -/
theorem decrypt_dimension_check_cex :
    ([7] : List ℤ).length ≠ ([1, 0, 0, 0, 0, 0, 0, 0, 0, 0, 0] : List ℤ).length
      ∧ decrypt (10, 10, 10, 70, 1) [1, 0, 0, 0, 0, 0, 0, 0, 0, 0, 0] [7] = Except.ok 1 :=
  ⟨by decide, rfl⟩

/-- C8 (amended): for every ciphertext whose length differs from the
secret key's length and is not 1 (and whose secret key's length is not
1 either — numpy broadcasting accepts a length-1 operand), `decrypt`
fails with the DimensionMismatch error; for matching lengths it never
raises. -/
theorem decrypt_dimension_check (params : Params) (sk c : List ℤ) :
    (c.length ≠ sk.length → c.length ≠ 1 → sk.length ≠ 1 →
      decrypt params sk c = Except.error "DimensionMismatch")
    ∧ (c.length = sk.length → ∃ v, decrypt params sk c = Except.ok v) := by
  constructor
  · intro h1 h2 h3
    simp [decrypt, broadcastMul, h1, h2, h3]
  · intro h
    exact ⟨_, decrypt_eq_of_length_eq params sk c h⟩

theorem decrypt_dimension_check_witness :
    decrypt (10, 10, 10, 70, 1) [1, 2] [1, 2, 3] = Except.error "DimensionMismatch" :=
  (decrypt_dimension_check (10, 10, 10, 70, 1) [1, 2] [1, 2, 3]).1 (by decide) (by decide)
    (by decide)

/-- C9: For every parameter tuple with `q > 0` and every pair of
equal-length integer vectors — whether or not they came from `encrypt`
or `secret_key_gen`, and even with negative or out-of-range entries —
`decrypt` returns a value in `{0, 1}`, because `(x mod q) mod 2` with
the nonnegative (Python-style) modulo lands in `{0, 1}`. -/
theorem decrypt_returns_bit (params : Params) (sk c : List ℤ)
    (hq : 0 < params.1) (hlen : c.length = sk.length) :
    ∃ v, decrypt params sk c = Except.ok v ∧ (v = 0 ∨ v = 1) := by
  refine ⟨dot c sk % (params.1 : ℤ) % 2, decrypt_eq_of_length_eq params sk c hlen, ?_⟩
  exact Int.emod_two_eq_zero_or_one (dot c sk % (params.1 : ℤ))

theorem decrypt_returns_bit_witness :
    ∃ v, decrypt (10, 10, 10, 70, 1) [-5, 3] [2, -7] = Except.ok v ∧ (v = 0 ∨ v = 1) :=
  decrypt_returns_bit (10, 10, 10, 70, 1) [-5, 3] [2, -7] (by decide) (by decide)

/-- C10: decrypt is deterministic and consumes no randomness (in this
embedding it is a pure function taking no randomness argument): calls
with equal secret key and ciphertext and parameter tuples that merely
agree on `q` — the only parameter `decrypt` reads; `d`, `n`, `N`, `chi`
may all differ — return equal results. -/
theorem decrypt_deterministic_only_q (p p' : Params) (sk sk' c c' : List ℤ)
    (hp : p.1 = p'.1) (hsk : sk = sk') (hc : c = c') :
    decrypt p sk c = decrypt p' sk' c' := by
  subst hsk
  subst hc
  obtain ⟨q, d, n, N, chi⟩ := p
  obtain ⟨q', d', n', N', chi'⟩ := p'
  have hq : q = q' := hp
  subst hq
  rfl

theorem decrypt_deterministic_only_q_witness :
    decrypt (10, 1, 2, 3, 4) [1, 2] [3, 4] = decrypt (10, 9, 8, 7, 6) [1, 2] [3, 4] :=
  decrypt_deterministic_only_q (10, 1, 2, 3, 4) (10, 9, 8, 7, 6) [1, 2] [1, 2] [3, 4] [3, 4]
    rfl rfl rfl

/-- C1: Round-trip correctness under the fixed parameters
`q = 10, n = 10, N = 70`: for every message bit `m ∈ {0,1}`, every
secret key produced by `secret_key_gen`, every public key produced from
it by `public_key_gen`, and all values of the random draws (`A`, `e`
inside key generation, the binary vector `r` inside encryption),
decrypting the encryption of `m` returns `m`.  The key fact is that
`c·sk ≡ m + 2·(r·e) (mod q)` and `q = 10` is even, so the final
`mod q` then `mod 2` recovers `m` exactly, whatever the noise. -/
theorem round_trip_correct
    (draw : List ℤ) (A : List (List ℤ)) (e r : List ℤ) (m : ℤ)
    (pk : List (List ℤ)) (c : List ℤ)
    (hdraw : draw.length = 11)
    (hA : A.length = 70) (hArect : ∀ row ∈ A, row.length = 10)
    (he : e.length = 70) (hr : r.length = 70)
    (hrbin : ∀ x ∈ r, x = 0 ∨ x = 1)
    (hm : m = 0 ∨ m = 1)
    (hpk : public_key_gen (10, 10, 10, 70, 1) (secret_key_gen (10, 10, 10, 70, 1) draw) A e
        = Except.ok pk)
    (hc : encrypt (10, 10, 10, 70, 1) pk r m = Except.ok c) :
    decrypt (10, 10, 10, 70, 1) (secret_key_gen (10, 10, 10, 70, 1) draw) c = Except.ok m := by
  obtain ⟨d0, dt, rfl⟩ : ∃ d0 dt, draw = d0 :: dt := by
    cases draw with
    | nil => exact absurd hdraw (by simp)
    | cons a l => exact ⟨a, l, rfl⟩
  have hdt : dt.length = 10 := by simpa using hdraw
  rw [secret_key_gen_cons] at hpk ⊢
  have hpk_eq : pk = pk_matrix 10 (1 :: dt) A e := public_key_gen_ok_inv hpk
  have hpklen : pk.length = 70 := by
    rw [hpk_eq, pk_matrix_length A e (hA.trans he.symm), hA]
  have hpkrect : ∀ row ∈ pk, row.length = 11 := by
    rw [hpk_eq]
    exact fun row h => pk_matrix_rect 10 A e 10 (1 :: dt) hArect row h
  have hceq : c = (List.zipWith (· + ·) (m :: List.replicate 10 0)
      (matVec (transpose pk) r)).map (· % 10) := by
    rw [encrypt_eq_of_valid (10, 10, 10, 70, 1) pk r hm] at hc
    exact (Except.ok.inj hc).symm
  have hne : pk ≠ [] := by
    intro hcontra
    rw [hcontra] at hpklen
    simp at hpklen
  have hT : (transpose pk).length = 11 := length_transpose_rect 11 pk hne hpkrect
  have hclen : c.length = 11 := by
    rw [hceq, List.length_map, List.length_zipWith, length_matVec, hT, List.length_cons,
      List.length_replicate]
    omega
  have hsklen : (1 :: dt).length = 11 := by simp [hdt]
  rw [decrypt_eq_of_length_eq (10, 10, 10, 70, 1) (1 :: dt) c (hclen.trans hsklen.symm)]
  have h2 : dot (List.zipWith (· + ·) (m :: List.replicate 10 0)
        (matVec (transpose pk) r)) (1 :: dt)
      = dot (m :: List.replicate 10 0) (1 :: dt) + dot (matVec (transpose pk) r) (1 :: dt) :=
    dot_zipWith_add _ _ _ (by simp [length_matVec, hT])
  have h3 : dot (m :: List.replicate 10 0) (1 :: dt) = m := by
    rw [dot_cons_cons, dot_replicate_zero]
    ring
  have h4 : dot (matVec (transpose pk) r) (1 :: dt) = dot r (matVec pk (1 :: dt)) :=
    dot_matVec_transpose 11 pk r (1 :: dt) (hpklen.trans hr.symm) hpkrect
  have h5 : dot r (matVec pk (1 :: dt)) ≡ dot r (e.map (fun x => 2 * x)) [ZMOD 10] := by
    rw [hpk_eq]
    exact dot_congr_modeq 10 (pk_matVec_modeq 10 dt A e (hA.trans he.symm)) r
  have h6 : dot r (e.map (fun x => 2 * x)) = 2 * dot r e := dot_map_mul_right 2 r e
  have hmain : dot c (1 :: dt) ≡ m + 2 * dot r e [ZMOD 10] := by
    have hz : dot (List.zipWith (· + ·) (m :: List.replicate 10 0)
        (matVec (transpose pk) r)) (1 :: dt) ≡ m + 2 * dot r e [ZMOD 10] := by
      rw [h2, h3, h4, ← h6]
      exact Int.ModEq.add_left m h5
    have h1 : dot c (1 :: dt) ≡ dot (List.zipWith (· + ·) (m :: List.replicate 10 0)
        (matVec (transpose pk) r)) (1 :: dt) [ZMOD 10] := by
      rw [hceq]
      exact dot_map_emod 10 _ _
    exact h1.trans hz
  have hfinal : dot c (1 :: dt) % (10 : ℤ) % 2 = m := by
    have hmain' : dot c (1 :: dt) % (10 : ℤ) = (m + 2 * dot r e) % 10 := hmain
    rw [hmain', Int.emod_emod_of_dvd _ (by norm_num : (2 : ℤ) ∣ 10),
      Int.add_mul_emod_self_left]
    rcases hm with rfl | rfl <;> decide
  exact congrArg Except.ok hfinal

theorem round_trip_correct_witness :
    decrypt (10, 10, 10, 70, 1) (secret_key_gen (10, 10, 10, 70, 1) (List.replicate 11 0))
        (List.replicate 11 0) = Except.ok 0 :=
  round_trip_correct (List.replicate 11 0) (List.replicate 70 (List.replicate 10 0))
    (List.replicate 70 0) (List.replicate 70 0) 0
    (List.replicate 70 (List.replicate 11 0)) (List.replicate 11 0)
    (by decide) (by decide) (by decide) (by decide) (by decide) (by decide) (Or.inl rfl)
    rfl rfl

end BGV
